import Mathlib

/-!
Verification of `datasets_preprocess/match_images.py`.

The script's pure logic is embedded shallowly:

* `extract_identifier` models the Python function of the same name, built on
  `re.search(r'(\d+)\.jpg$', filename)`.  Since the pattern is anchored by `$`
  and `\d+` is greedy, a search succeeds exactly when the string — after
  discarding a single final newline, which Python's `$` also matches before —
  ends in one or more digits immediately followed by the literal `.jpg`, and
  the captured group is the maximal trailing digit run.  We work on the
  reversed character list, which expresses exactly that.  The `\d` class is
  modelled as the ASCII digits `0`–`9` (the repository's file names are ASCII).
* `os.path` primitives (`join`, `basename`, `dirname`, `normpath`) are
  translated from CPython's `posixpath` implementations.
* Python dicts preserve insertion order; the two candidate indices are
  modelled as association lists with `dictAppend`/`dictGet`/`dictContains`.
* Directory traversal and file copying are external capabilities (the spec
  lists them as supplied primitives): a recursive `os.walk` is an input of
  type `Walk`, a list of `(root, files)` entries in traversal order, and the
  non-recursive `os.listdir source_folder` is an input listing.  A copy is
  recorded as the destination file name produced for it.
* Python's `sorted` on strings (lexicographic by code point) is modelled by
  an insertion sort over a code-point comparison; it is proved below to sort
  with respect to the standard lexicographic order on `String`.
-/

namespace MatchImages

/-- Lexicographic code-point comparison of character lists, as Python compares
strings.  `charListLe a b = true` iff `a ≤ b` in the standard list order. -/
def charListLe : List Char → List Char → Bool
  | [], _ => true
  | _ :: _, [] => false
  | a :: as, b :: bs => if a < b then true else if b < a then false else charListLe as bs

/-- Python string comparison `s1 <= s2` (lexicographic by code point). -/
def strLe (a b : String) : Bool := charListLe a.data b.data

/-- Insert a string into a sorted list, keeping it sorted (helper for the
model of Python's `sorted`). -/
def orderedIns (x : String) : List String → List String
  | [] => [x]
  | y :: ys => if strLe x y then x :: y :: ys else y :: orderedIns x ys

/-- Model of Python's `sorted` on a list of strings: an insertion sort by the
lexicographic code-point order. -/
def sortStrings : List String → List String
  | [] => []
  | x :: xs => orderedIns x (sortStrings xs)

/-- CPython `posixpath.join(a, b)` for a single extra component: `b` if `b` is
absolute; `a + b` if `a` is empty or ends in a slash; otherwise `a + "/" + b`. -/
def pathJoin (a b : String) : String :=
  if b.data.take 1 = ['/'] then b
  else if a = "" ∨ a.data.getLast? = some '/' then a ++ b
  else a ++ "/" ++ b

/-- CPython `posixpath.basename(p)`: everything after the last slash. -/
def basename (p : String) : String :=
  String.mk ((p.data.reverse.takeWhile (fun c => !(c = '/'))).reverse)

/-- CPython `posixpath.dirname(p)`: the part up to the last slash, with
trailing slashes stripped unless the result consists only of slashes. -/
def dirname (p : String) : String :=
  let head := (p.data.reverse.dropWhile (fun c => !(c = '/'))).reverse
  if head = [] then ""
  else if head.all (fun c => c = '/') then String.mk head
  else String.mk ((head.reverse.dropWhile (fun c => c = '/')).reverse)

/-- Python `path.split('/')` on character lists. -/
def splitSlash : List Char → List (List Char)
  | [] => [[]]
  | c :: cs =>
    let r := splitSlash cs
    if c = '/' then [] :: r
    else
      match r with
      | [] => [[c]]
      | g :: gs => (c :: g) :: gs

/-- Number of initial slashes kept by CPython `posixpath.normpath`: two are
special, any other number collapses to one. -/
def initialSlashes (cs : List Char) : Nat :=
  if cs.take 1 = ['/'] then
    if cs.take 2 = ['/', '/'] ∧ cs.take 3 ≠ ['/', '/', '/'] then 2 else 1
  else 0

/-- The component-processing loop of CPython `posixpath.normpath`: skip empty
and `.` components, append ordinary ones, and let `..` pop the previous
component unless the path is relative and nothing is left to pop. -/
def normComps (slashes : Nat) : List String → List String → List String
  | acc, [] => acc
  | acc, comp :: rest =>
    if comp = "" ∨ comp = "." then normComps slashes acc rest
    else if comp ≠ ".." ∨ (slashes = 0 ∧ acc = []) ∨ (acc ≠ [] ∧ acc.getLast? = some "..") then
      normComps slashes (acc ++ [comp]) rest
    else if acc ≠ [] then normComps slashes acc.dropLast rest
    else normComps slashes acc rest

/-- CPython `posixpath.normpath`. -/
def normpath (path : String) : String :=
  if path = "" then "."
  else
    let n := initialSlashes path.data
    let comps := (splitSlash path.data).map String.mk
    let joined := String.intercalate "/" (normComps n [] comps)
    let res := String.mk (List.replicate n '/') ++ joined
    if res = "" then "." else res

/-- Drop the single final newline that Python's `$` anchor may match before
(the argument is the reversed character list, so the final newline is in
front). -/
def stripNL (rcs : List Char) : List Char :=
  if rcs.take 1 = ['\n'] then rcs.drop 1 else rcs

/-- Core of `re.search(r'(\d+)\.jpg$', ·)` on the reversed character list: the
string must end in `.jpg` preceded by a nonempty digit run, and the greedy
`\d+` captures the maximal such run (returned reversed). -/
def revRunAfterJpg (rcs : List Char) : Option (List Char) :=
  if rcs.take 4 = ['g', 'p', 'j', '.'] then
    let run := (rcs.drop 4).takeWhile Char.isDigit
    if run = [] then none else some run
  else none

/-- The captured group of `re.search(r'(\d+)\.jpg$', filename)`, in forward
order, or `none` when the regex does not match. -/
def regexGroup (filename : String) : Option (List Char) :=
  (revRunAfterJpg (stripNL filename.data.reverse)).map List.reverse

/-- Model of `extract_identifier` from `match_images.py`: extract the digit
run before `.jpg` and drop its last five characters when it is longer than
five characters (`full_id[:-5]`), returning it whole otherwise. -/
def extract_identifier (filename : String) : Option String :=
  match regexGroup filename with
  | some full_id =>
    if 5 < full_id.length then some (String.mk (full_id.take (full_id.length - 5)))
    else some (String.mk full_id)
  | none => none

/-- Python `file.lower().endswith('.jpg')` (ASCII case folding). -/
def isJpgCI (file : String) : Bool :=
  decide ((file.data.map Char.toLower).reverse.take 4 = ['g', 'p', 'j', '.'])

/-- A candidate index: a Python dict from truncated identifier to the list of
paths inserted for it, in insertion order. -/
abbrev Index := List (String × List String)

/-- Dict key membership, `k in d`. -/
def dictContains (d : Index) (k : String) : Bool :=
  match d with
  | [] => false
  | e :: rest => decide (e.1 = k) || dictContains rest k

/-- Dict lookup `d[k]`, returning `[]` for an absent key (the script only
indexes keys it has checked for membership). -/
def dictGet (d : Index) (k : String) : List String :=
  match d with
  | [] => []
  | e :: rest => if e.1 = k then e.2 else dictGet rest k

/-- The script's insertion step: create `d[k] = []` if the key is absent, then
append `v` to `d[k]`. -/
def dictAppend (d : Index) (k v : String) : Index :=
  match d with
  | [] => [(k, [v])]
  | e :: rest => if e.1 = k then (e.1, e.2 ++ [v]) :: rest else e :: dictAppend rest k v

/-- One file of one `os.walk` entry, as consumed by the index-building loops
of `find_matching_images`: keep it iff its name passes the case-insensitive
`.jpg` filter and yields a truthy (non-`None`, nonempty) identifier. -/
def indexFile (d : Index) (root file : String) : Index :=
  if isJpgCI file then
    match extract_identifier file with
    | some truncated_id =>
      if truncated_id = "" then d
      else dictAppend d truncated_id (pathJoin root file)
    | none => d
  else d

/-- A recursive directory walk, as yielded by `os.walk`: `(root, files)`
entries in traversal order (the unused `dirs` component is omitted). -/
abbrev Walk := List (String × List String)

/-- The index-building loop of `find_matching_images` over one walk. -/
def buildIndex (walk : Walk) : Index :=
  walk.foldl (fun d e => e.2.foldl (fun d file => indexFile d e.1 file) d) []

/-- Little-endian decimal digits of `n`, with explicit fuel so that the
kernel can evaluate it (`fuel ≥ n` suffices; the fuel-0 case is unreachable
then, except for `n = 0` itself). -/
def decDigitsRev : Nat → Nat → List Nat
  | 0, n => [n % 10]
  | fuel + 1, n => if n < 10 then [n] else (n % 10) :: decDigitsRev fuel (n / 10)

/-- Python `f"{index:04d}"` without the padding: the decimal digits of `n`. -/
def decChars (n : Nat) : List Char :=
  (decDigitsRev n n).reverse.map Nat.digitChar

/-- Python `f"{index:04d}"`: the decimal digits of `n`, zero-padded on the
left to width 4 (wider numbers are not truncated). -/
def pad4 (n : Nat) : List Char :=
  List.replicate (4 - (decChars n).length) '0' ++ decChars n

/-- Python `f"{index:04d}"` as a string. -/
def fmt04d (n : Nat) : String := String.mk (pad4 n)

/-- The outcome the matching loop reports for one source file: the identifier
could not be extracted, it was absent from one of the two indices, or a match
group was emitted.  A `matched` outcome records the chosen paths and the three
destination file names of the copies. -/
inductive FileOutcome where
  | extractFailed (source_file : String)
  | noMatch (truncated_id : String)
  | matched (truncated_id : String) (multiple : Bool)
      (source_path folder1_path folder2_path : String)
      (new_source_name new_folder1_name new_folder2_name : String)
deriving DecidableEq

/-- The loop body of `find_matching_images` for the source file at position
`index`, translated clause by clause from the Python. -/
def processFile (source_folder : String) (folder1_dict folder2_dict : Index)
    (index : Nat) (source_file : String) : FileOutcome :=
  let source_path := pathJoin source_folder source_file
  match extract_identifier source_file with
  | none => .extractFailed source_file
  | some truncated_id =>
    if truncated_id = "" then .extractFailed source_file
    else if dictContains folder1_dict truncated_id && dictContains folder2_dict truncated_id then
      let folder1_path := (dictGet folder1_dict truncated_id).headD ""
      let folder2_path := (dictGet folder2_dict truncated_id).headD ""
      let multiple := decide (1 < (dictGet folder1_dict truncated_id).length)
        || decide (1 < (dictGet folder2_dict truncated_id).length)
      let source_folder_name := basename (normpath source_folder)
      let folder1_name := basename (normpath (dirname folder1_path))
      let folder2_name := basename (normpath (dirname folder2_path))
      let new_source_name := fmt04d index ++ "_1_" ++ source_folder_name ++ "_" ++
        basename source_path
      let new_folder1_name := fmt04d index ++ "_2_" ++ folder1_name ++ "_" ++
        basename folder1_path
      let new_folder2_name := fmt04d index ++ "_3_" ++ folder2_name ++ "_" ++
        basename folder2_path
      .matched truncated_id multiple source_path folder1_path folder2_path
        new_source_name new_folder1_name new_folder2_name
    else .noMatch truncated_id

/-- Whether an outcome is an emitted match group. -/
def isMatched : FileOutcome → Bool
  | .matched _ _ _ _ _ _ _ _ => true
  | _ => false

/-- The `matches_found` update of one loop iteration. -/
def counterStep (matches_found : Nat) (o : FileOutcome) : Nat :=
  if isMatched o then matches_found + 1 else matches_found

/-- The matching loop over an explicit list of `(index, source_file)` pairs,
threading the list of reported outcomes and the running `matches_found`
counter exactly as the Python `for` loop does. -/
def passState (source_folder : String) (folder1_dict folder2_dict : Index)
    (pairs : List (Nat × String)) : List (Nat × FileOutcome) × Nat :=
  pairs.foldl
    (fun acc p =>
      let o := processFile source_folder folder1_dict folder2_dict p.1 p.2
      (acc.1 ++ [(p.1, o)], counterStep acc.2 o))
    ([], 0)

/-- The source list: `[f for f in sorted(os.listdir(source_folder)) if
f.lower().endswith('.jpg')]`, with the non-recursive listing supplied as an
input. -/
def sourceFiles (listing : List String) : List String :=
  (sortStrings listing).filter isJpgCI

/-- Model of `find_matching_images`: build both indices, then run the matching
loop over the enumerated sorted-and-filtered source listing.  The result is
the list of per-file outcomes (with their indices) and the final
`matches_found` count that the script reports. -/
def find_matching_images (source_folder : String) (listing : List String)
    (walk1 walk2 : Walk) : List (Nat × FileOutcome) × Nat :=
  passState source_folder (buildIndex walk1) (buildIndex walk2) (sourceFiles listing).enum

/-- The destination file names an outcome copies to (empty unless a match
group was emitted; the script then copies to these names inside the
destination folder). -/
def outcomeDestNames : FileOutcome → List String
  | .matched _ _ _ _ _ n1 n2 n3 => [n1, n2, n3]
  | _ => []

/-- All destination file names produced by one run. -/
def allDestNames (source_folder : String) (listing : List String)
    (walk1 walk2 : Walk) : List String :=
  (find_matching_images source_folder listing walk1 walk2).1.flatMap
    (fun p => outcomeDestNames p.2)

/-- Python truthiness of the optional identifier string: `None` and `""` are
falsy, everything else is truthy. -/
def strTruthy : Option String → Bool
  | none => false
  | some s => !(s = "")

/-- All `(root, file)` pairs of a walk in traversal order. -/
def walkPairs (walk : Walk) : List (String × String) :=
  walk.flatMap (fun e => e.2.map (fun f => (e.1, f)))

/-- The key under which the index-building loop files a directory entry, or
`none` when the entry is skipped. -/
def indexKey (file : String) : Option String :=
  if isJpgCI file then
    match extract_identifier file with
    | some id => if id = "" then none else some id
    | none => none
  else none

/-- The paths a walk contributes to a given index key, in traversal order. -/
def matchesOf (walk : Walk) (k : String) : List String :=
  ((walkPairs walk).filter (fun rf => decide (indexKey rf.2 = some k))).map
    (fun rf => pathJoin rf.1 rf.2)

/-- Spec predicate (section 4.1): the filename ends in one or more digits
immediately followed by the literal, case-sensitive suffix `.jpg`. -/
def endsInDigitsJpg_spec (f : String) : Bool :=
  decide (f.data.reverse.take 4 = ['g', 'p', 'j', '.']) &&
    (match (f.data.reverse.drop 4).head? with
     | some c => c.isDigit
     | none => false)

/-- The previous predicate extended by the one case Python's `$` anchor adds:
the pattern may also end just before a single final newline. -/
def endsInDigitsJpgOrNL_spec (f : String) : Bool :=
  endsInDigitsJpg_spec f ||
    (if f.data.reverse.take 1 = ['\n']
     then endsInDigitsJpg_spec (String.mk (f.data.reverse.drop 1).reverse)
     else false)

/-- Destination-filename pattern as the spec states it:
`{index:04d}_{slot}_{group_name}_{original_basename}`. -/
def specName (index slot : Nat) (group_name original_basename : String) : String :=
  fmt04d index ++ "_" ++ String.mk (decChars slot) ++ "_" ++ group_name ++ "_" ++
    original_basename

/-- Decimal value of a character list (each character valued at its distance
from `'0'`), used to state that zero-padding does not lose the index. -/
def charsVal (l : List Char) : Nat :=
  l.foldl (fun x c => 10 * x + (c.toNat - 48)) 0

/-! ### Basic string and list helpers -/

theorem str_eq_of_data {a b : String} (h : a.data = b.data) : a = b := by
  cases a; cases b; exact congrArg String.mk h

theorem strMk_data (s : String) : String.mk s.data = s := rfl

theorem takeWhile_append_of_all {α : Type} (p : α → Bool) {l1 : List α} (l2 : List α)
    (h : ∀ c ∈ l1, p c = true) :
    (l1 ++ l2).takeWhile p = l1 ++ l2.takeWhile p := by
  induction l1 with
  | nil => simp
  | cons a t ih =>
    have ha := h a (by simp)
    simp only [List.cons_append, List.takeWhile_cons, ha, if_true]
    rw [ih (fun c hc => h c (by simp [hc]))]

theorem takeWhile_of_all {α : Type} (p : α → Bool) (l : List α)
    (h : ∀ c ∈ l, p c = true) : l.takeWhile p = l := by
  have := @takeWhile_append_of_all _ p l [] h
  simpa using this

theorem mem_of_mem_takeWhile {α : Type} {p : α → Bool} {x : α} :
    ∀ {l : List α}, x ∈ l.takeWhile p → p x = true ∧ x ∈ l
  | [], h => by simp at h
  | a :: t, h => by
    by_cases ha : p a = true
    · simp only [List.takeWhile_cons, ha, if_true, List.mem_cons] at h
      rcases h with rfl | h
      · exact ⟨ha, by simp⟩
      · have := @mem_of_mem_takeWhile _ p x t h
        exact ⟨this.1, by simp [this.2]⟩
    · simp [List.takeWhile_cons, ha] at h

theorem takeWhile_ne_nil_iff {α : Type} (p : α → Bool) (l : List α) :
    l.takeWhile p ≠ [] ↔ ∃ c, l.head? = some c ∧ p c = true := by
  cases l with
  | nil => simp
  | cons a t =>
    by_cases ha : p a = true
    · simp [List.takeWhile_cons, ha]
    · simp [List.takeWhile_cons, ha]

theorem headD_mem {α : Type} {l : List α} (h : l ≠ []) (d : α) : l.headD d ∈ l := by
  cases l with
  | nil => exact absurd rfl h
  | cons a t => simp

/-! ### The string sort agrees with the lexicographic order -/

theorem charListLe_cons_iff {a b : Char} {as bs : List Char} :
    charListLe (a :: as) (b :: bs) = true ↔ a < b ∨ (a = b ∧ charListLe as bs = true) := by
  by_cases h1 : a < b
  · simp [charListLe, h1]
  · by_cases h2 : b < a
    · have hne : ¬a = b := fun h => absurd (h ▸ h2) (lt_irrefl a)
      simp [charListLe, h1, h2, hne]
    · have heq : a = b := le_antisymm (le_of_not_lt h2) (le_of_not_lt h1)
      simp [charListLe, h1, h2, heq]

theorem charListLe_total : ∀ as bs : List Char,
    charListLe as bs = true ∨ charListLe bs as = true
  | [], _ => Or.inl rfl
  | _ :: _, [] => Or.inr rfl
  | a :: as, b :: bs => by
    rcases lt_trichotomy a b with h | h | h
    · exact Or.inl (charListLe_cons_iff.mpr (Or.inl h))
    · rcases charListLe_total as bs with ih | ih
      · exact Or.inl (charListLe_cons_iff.mpr (Or.inr ⟨h, ih⟩))
      · exact Or.inr (charListLe_cons_iff.mpr (Or.inr ⟨h.symm, ih⟩))
    · exact Or.inr (charListLe_cons_iff.mpr (Or.inl h))

theorem charListLe_trans : ∀ {as bs cs : List Char},
    charListLe as bs = true → charListLe bs cs = true → charListLe as cs = true
  | [], _, _, _, _ => rfl
  | a :: as, [], cs, h1, _ => by simp [charListLe] at h1
  | a :: as, b :: bs, [], _, h2 => by simp [charListLe] at h2
  | a :: as, b :: bs, c :: cs, h1, h2 => by
    rcases charListLe_cons_iff.mp h1 with hab | ⟨hab, h1'⟩ <;>
      rcases charListLe_cons_iff.mp h2 with hbc | ⟨hbc, h2'⟩
    · exact charListLe_cons_iff.mpr (Or.inl (lt_trans hab hbc))
    · exact charListLe_cons_iff.mpr (Or.inl (hbc ▸ hab))
    · exact charListLe_cons_iff.mpr (Or.inl (hab ▸ hbc))
    · exact charListLe_cons_iff.mpr (Or.inr ⟨hab.trans hbc, charListLe_trans h1' h2'⟩)

theorem charListLe_iff_not_lt : ∀ as bs : List Char,
    charListLe as bs = true ↔ ¬ List.lt bs as
  | [], bs => by
    constructor
    · intro _ h
      cases bs <;> cases h
    · intro _
      rfl
  | a :: as, [] => by
    constructor
    · intro h
      simp [charListLe] at h
    · intro h
      exact absurd (List.lt.nil a as) h
  | a :: as, b :: bs => by
    rw [charListLe_cons_iff]
    constructor
    · rintro (hab | ⟨rfl, h⟩) hlt
      · cases hlt with
        | head _ _ h' => exact absurd hab (asymm h')
        | tail h1 h2 _ => exact h2 hab
      · cases hlt with
        | head _ _ h' => exact lt_irrefl _ h'
        | tail h1 h2 h3 => exact (charListLe_iff_not_lt as bs).mp h h3
    · intro h
      rcases lt_trichotomy a b with hab | rfl | hab
      · exact Or.inl hab
      · refine Or.inr ⟨rfl, (charListLe_iff_not_lt as bs).mpr fun h3 => ?_⟩
        exact h (List.lt.tail (lt_irrefl a) (lt_irrefl a) h3)
      · exact absurd (List.lt.head bs as hab) h

theorem strLe_iff (a b : String) : strLe a b = true ↔ a ≤ b := by
  constructor
  · intro h
    rw [← not_lt]
    intro hba
    have h1 : List.Lex (· < ·) b.data a.data := String.lt_iff_toList_lt.mp hba
    have h2 : List.lt b.data a.data := (List.lt_iff_lex_lt _ _).mpr h1
    exact (charListLe_iff_not_lt _ _).mp h h2
  · intro h
    apply (charListLe_iff_not_lt _ _).mpr
    intro hlt
    have h1 : List.Lex (· < ·) b.data a.data := (List.lt_iff_lex_lt _ _).mp hlt
    have h2 : b < a := String.lt_iff_toList_lt.mpr h1
    exact absurd h2 (not_lt.mpr h)

theorem orderedIns_perm (x : String) : ∀ l : List String, (orderedIns x l).Perm (x :: l)
  | [] => List.Perm.refl _
  | y :: ys => by
    by_cases h : strLe x y = true
    · simp [orderedIns, h]
    · simp only [orderedIns, h, if_false]
      exact ((orderedIns_perm x ys).cons y).trans (List.Perm.swap x y ys)

theorem sortStrings_perm : ∀ l : List String, (sortStrings l).Perm l
  | [] => List.Perm.refl _
  | x :: xs => (orderedIns_perm x (sortStrings xs)).trans ((sortStrings_perm xs).cons x)

theorem orderedIns_pairwise (x : String) :
    ∀ {l : List String}, List.Pairwise (fun a b => strLe a b = true) l →
      List.Pairwise (fun a b => strLe a b = true) (orderedIns x l)
  | [], _ => by simp [orderedIns]
  | y :: ys, h => by
    rcases List.pairwise_cons.mp h with ⟨hy, hys⟩
    by_cases hxy : strLe x y = true
    · simp only [orderedIns, hxy, if_true]
      refine List.pairwise_cons.mpr ⟨?_, h⟩
      intro z hz
      rcases List.mem_cons.mp hz with rfl | hz
      · exact hxy
      · exact charListLe_trans hxy (hy z hz)
    · simp only [orderedIns, hxy, if_false]
      refine List.pairwise_cons.mpr ⟨?_, orderedIns_pairwise x hys⟩
      intro z hz
      rcases List.mem_cons.mp ((orderedIns_perm x ys).mem_iff.mp hz) with rfl | hz
      · exact (charListLe_total z.data y.data).resolve_left hxy
      · exact hy z hz

theorem sortStrings_pairwise : ∀ l : List String,
    List.Pairwise (fun a b => strLe a b = true) (sortStrings l)
  | [] => List.Pairwise.nil
  | x :: xs => orderedIns_pairwise x (sortStrings_pairwise xs)

theorem sortStrings_sorted (l : List String) : List.Sorted (· ≤ ·) (sortStrings l) :=
  (sortStrings_pairwise l).imp (fun h => (strLe_iff _ _).mp h)

/-! ### Decimal formatting -/

theorem decDigitsRev_spec : ∀ fuel n, n ≤ fuel →
    Nat.ofDigits 10 (decDigitsRev fuel n) = n ∧ ∀ d ∈ decDigitsRev fuel n, d < 10 := by
  intro fuel
  induction fuel with
  | zero =>
    intro n hn
    have h0 : n = 0 := Nat.le_zero.mp hn
    subst h0
    refine ⟨by simp [decDigitsRev, Nat.ofDigits], ?_⟩
    intro d hd
    simp [decDigitsRev] at hd
    omega
  | succ fuel ih =>
    intro n hn
    by_cases h10 : n < 10
    · refine ⟨by simp [decDigitsRev, h10, Nat.ofDigits], ?_⟩
      intro d hd
      simp [decDigitsRev, h10] at hd
      omega
    · have hpos : 0 < n := by omega
      have hdiv : n / 10 < n := Nat.div_lt_self hpos (by norm_num)
      have hfuel : n / 10 ≤ fuel := by omega
      obtain ⟨ih1, ih2⟩ := ih (n / 10) hfuel
      constructor
      · simp only [decDigitsRev, h10, if_false, Nat.ofDigits_cons, ih1]
        exact Nat.mod_add_div n 10
      · intro d hd
        simp only [decDigitsRev, h10, if_false, List.mem_cons] at hd
        rcases hd with rfl | hd
        · exact Nat.mod_lt _ (by norm_num)
        · exact ih2 d hd

theorem charVal_digitChar {d : Nat} (h : d < 10) : (Nat.digitChar d).toNat - 48 = d := by
  interval_cases d <;> rfl

theorem digitChar_isDigit {d : Nat} (h : d < 10) : (Nat.digitChar d).isDigit = true := by
  interval_cases d <;> rfl

theorem foldl_val_digits : ∀ (L : List Nat), (∀ d ∈ L, d < 10) → ∀ a : Nat,
    List.foldl (fun x c => 10 * x + (c.toNat - 48)) a (L.reverse.map Nat.digitChar) =
      a * 10 ^ L.length + Nat.ofDigits 10 L := by
  intro L
  induction L with
  | nil => intro _ a; simp [Nat.ofDigits]
  | cons d T ih =>
    intro h a
    have hd : d < 10 := h d (by simp)
    have hT : ∀ x ∈ T, x < 10 := fun x hx => h x (by simp [hx])
    simp only [List.reverse_cons, List.map_append, List.foldl_append, List.map_cons,
      List.map_nil, List.foldl_cons, List.foldl_nil, ih hT a, charVal_digitChar hd,
      Nat.ofDigits_cons, List.length_cons]
    ring

theorem charsVal_decChars (n : Nat) : charsVal (decChars n) = n := by
  obtain ⟨h1, h2⟩ := decDigitsRev_spec n n le_rfl
  have := foldl_val_digits (decDigitsRev n n) h2 0
  simpa [charsVal, decChars, h1] using this

theorem decChars_isDigit (n : Nat) : ∀ c ∈ decChars n, c.isDigit = true := by
  intro c hc
  simp only [decChars, List.mem_map, List.mem_reverse] at hc
  obtain ⟨d, hd, rfl⟩ := hc
  exact digitChar_isDigit ((decDigitsRev_spec n n le_rfl).2 d hd)

theorem foldl_val_zeros : ∀ k : Nat,
    List.foldl (fun x c => 10 * x + (c.toNat - 48)) 0 (List.replicate k '0') = 0 := by
  intro k
  induction k with
  | zero => rfl
  | succ k ih => simpa [List.replicate_succ] using ih

theorem charsVal_pad4 (n : Nat) : charsVal (pad4 n) = n := by
  have h := foldl_val_zeros (4 - (decChars n).length)
  calc charsVal (pad4 n)
      = List.foldl (fun x c => 10 * x + (c.toNat - 48)) 0
          (List.replicate (4 - (decChars n).length) '0' ++ decChars n) := rfl
    _ = List.foldl (fun x c => 10 * x + (c.toNat - 48)) 0 (decChars n) := by
        rw [List.foldl_append, h]
    _ = n := charsVal_decChars n

theorem pad4_inj {m n : Nat} (h : pad4 m = pad4 n) : m = n := by
  have := congrArg charsVal h
  rwa [charsVal_pad4, charsVal_pad4] at this

theorem pad4_isDigit (n : Nat) : ∀ c ∈ pad4 n, c.isDigit = true := by
  intro c hc
  rcases List.mem_append.mp hc with hc | hc
  · have : c = '0' := List.eq_of_mem_replicate hc
    subst this
    rfl
  · exact decChars_isDigit n c hc

theorem isDigit_ne_underscore {c : Char} (h : c.isDigit = true) : ¬(c = '_') := by
  rintro rfl
  exact absurd h (by decide)

theorem isDigit_ne_slash {c : Char} (h : c.isDigit = true) : ¬(c = '/') := by
  rintro rfl
  exact absurd h (by decide)

theorem pad4_length (n : Nat) : (pad4 n).length = max 4 (decChars n).length := by
  simp only [pad4, List.length_append, List.length_replicate]
  omega

theorem decDigitsRev_length_gt : ∀ fuel n k, n ≤ fuel → 10 ^ k ≤ n →
    k < (decDigitsRev fuel n).length := by
  intro fuel
  induction fuel with
  | zero =>
    intro n k hn hk
    have : n = 0 := Nat.le_zero.mp hn
    subst this
    have hpow : 0 < 10 ^ k := Nat.pos_pow_of_pos k (by norm_num)
    omega
  | succ fuel ih =>
    intro n k hn hk
    by_cases h10 : n < 10
    · have hk0 : k = 0 := by
        by_contra hne
        have h1 : 1 ≤ k := Nat.one_le_iff_ne_zero.mpr hne
        have : 10 ^ 1 ≤ 10 ^ k := Nat.pow_le_pow_right (by norm_num) h1
        omega
      subst hk0
      simp [decDigitsRev, h10]
    · simp only [decDigitsRev, h10, if_false, List.length_cons]
      cases k with
      | zero => omega
      | succ k' =>
        have hpos : 0 < n := by omega
        have hdiv : n / 10 < n := Nat.div_lt_self hpos (by norm_num)
        have hfuel : n / 10 ≤ fuel := by omega
        have hpow : 10 ^ k' ≤ n / 10 := by
          rw [Nat.le_div_iff_mul_le (by norm_num)]
          calc 10 ^ k' * 10 = 10 ^ (k' + 1) := by ring
            _ ≤ n := hk
        exact Nat.succ_lt_succ (ih (n / 10) k' hfuel hpow)

theorem fmt04d_wide {n : Nat} (h : 10000 ≤ n) : fmt04d n = String.mk (decChars n) := by
  have h4 : 4 < (decChars n).length := by
    have := decDigitsRev_length_gt n n 4 le_rfl (by simpa using h)
    simpa [decChars] using this
  have : 4 - (decChars n).length = 0 := by omega
  simp [fmt04d, pad4, this]

/-! ### Destination-name shape and injectivity -/

/-- The character-level shape of every destination file name the script
builds: the padded index, an underscore, the slot digit, an underscore, and
the rest. -/
def mkName (i : Nat) (slot : Char) (rest : List Char) : List Char :=
  pad4 i ++ '_' :: slot :: '_' :: rest

theorem mkName_takeWhile (i : Nat) (s : Char) (r : List Char) :
    (mkName i s r).takeWhile (fun c => !(c = '_')) = pad4 i := by
  rw [mkName, takeWhile_append_of_all]
  · simp [List.takeWhile_cons]
  · intro c hc
    simp [isDigit_ne_underscore (pad4_isDigit i c hc)]

theorem mkName_drop (i : Nat) (s : Char) (r : List Char) :
    (mkName i s r).drop (pad4 i).length = '_' :: s :: '_' :: r := by
  rw [mkName, List.drop_left]

theorem mkName_inj {i1 i2 : Nat} {s1 s2 : Char} {r1 r2 : List Char}
    (h : mkName i1 s1 r1 = mkName i2 s2 r2) : i1 = i2 ∧ s1 = s2 := by
  have hp : pad4 i1 = pad4 i2 := by
    rw [← mkName_takeWhile i1 s1 r1, ← mkName_takeWhile i2 s2 r2, h]
  have hi : i1 = i2 := pad4_inj hp
  have hd : ('_' :: s1 :: '_' :: r1 : List Char) = '_' :: s2 :: '_' :: r2 := by
    rw [← mkName_drop i1 s1 r1, ← mkName_drop i2 s2 r2, h, hp]
  injection hd with h1 h2
  injection h2 with h3 h4
  exact ⟨hi, h3⟩

theorem name1_data (i : Nat) (g b : String) :
    (fmt04d i ++ "_1_" ++ g ++ "_" ++ b).data =
      mkName i '1' (g.data ++ '_' :: b.data) := by
  simp [String.data_append, fmt04d, mkName]

theorem name2_data (i : Nat) (g b : String) :
    (fmt04d i ++ "_2_" ++ g ++ "_" ++ b).data =
      mkName i '2' (g.data ++ '_' :: b.data) := by
  simp [String.data_append, fmt04d, mkName]

theorem name3_data (i : Nat) (g b : String) :
    (fmt04d i ++ "_3_" ++ g ++ "_" ++ b).data =
      mkName i '3' (g.data ++ '_' :: b.data) := by
  simp [String.data_append, fmt04d, mkName]

theorem specName_one (i : Nat) (g b : String) :
    specName i 1 g b = fmt04d i ++ "_1_" ++ g ++ "_" ++ b := by
  apply str_eq_of_data
  simp [specName, String.data_append, show decChars 1 = ['1'] from rfl]

theorem specName_two (i : Nat) (g b : String) :
    specName i 2 g b = fmt04d i ++ "_2_" ++ g ++ "_" ++ b := by
  apply str_eq_of_data
  simp [specName, String.data_append, show decChars 2 = ['2'] from rfl]

theorem specName_three (i : Nat) (g b : String) :
    specName i 3 g b = fmt04d i ++ "_3_" ++ g ++ "_" ++ b := by
  apply str_eq_of_data
  simp [specName, String.data_append, show decChars 3 = ['3'] from rfl]

/-! ### Dictionary lemmas -/

theorem dictGet_dictAppend (d : Index) (k v k' : String) :
    dictGet (dictAppend d k v) k' =
      if k' = k then dictGet d k ++ [v] else dictGet d k' := by
  induction d with
  | nil =>
    by_cases h : k' = k
    · simp [dictAppend, dictGet, h]
    · have h2 : ¬ k = k' := fun hh => h hh.symm
      simp [dictAppend, dictGet, h, h2]
  | cons e rest ih =>
    by_cases he : e.1 = k
    · by_cases h : k' = k
      · simp [dictAppend, dictGet, he, h, he.trans h.symm]
      · have h2 : ¬ k = k' := fun hh => h hh.symm
        have h3 : ¬ e.1 = k' := fun hh => h (hh.symm.trans he)
        simp [dictAppend, dictGet, he, h, h2, h3]
    · by_cases h2 : e.1 = k'
      · have h3 : ¬ k' = k := fun hh => he (h2.trans hh)
        simp [dictAppend, dictGet, he, h2, h3]
      · simp [dictAppend, dictGet, he, h2, ih]

theorem dictContains_dictAppend (d : Index) (k v k' : String) :
    dictContains (dictAppend d k v) k' = (decide (k' = k) || dictContains d k') := by
  induction d with
  | nil =>
    by_cases h : k' = k
    · simp [dictAppend, dictContains, h]
    · have h2 : ¬ k = k' := fun hh => h hh.symm
      simp [dictAppend, dictContains, h, h2]
  | cons e rest ih =>
    by_cases he : e.1 = k
    · by_cases h : k' = k
      · simp [dictAppend, dictContains, he, h, he.trans h.symm]
      · have h2 : ¬ k = k' := fun hh => h hh.symm
        simp [dictAppend, dictContains, he, h, h2]
    · simp only [dictAppend, he, if_false]
      rw [show dictContains (e :: dictAppend rest k v) k' =
            (decide (e.1 = k') || dictContains (dictAppend rest k v) k') from rfl,
          show dictContains (e :: rest) k' =
            (decide (e.1 = k') || dictContains rest k') from rfl, ih]
      cases hek : decide (e.1 = k') <;> cases hk : decide (k' = k) <;> simp

/-! ### Index characterization -/

/-- One step of the index-building loop, on a `(root, file)` pair. -/
def indexStep (d : Index) (rf : String × String) : Index := indexFile d rf.1 rf.2

theorem indexFile_eq_key (d : Index) (root file : String) :
    indexFile d root file =
      match indexKey file with
      | some id => dictAppend d id (pathJoin root file)
      | none => d := by
  rw [indexFile, indexKey]
  by_cases hj : isJpgCI file
  · simp only [hj, if_true]
    cases hx : extract_identifier file with
    | none => rfl
    | some id =>
      by_cases he : id = "" <;> simp [he]
  · simp [hj]

theorem buildIndex_eq_foldl : ∀ walk : Walk, ∀ d : Index,
    walk.foldl (fun d e => e.2.foldl (fun d file => indexFile d e.1 file) d) d =
      (walkPairs walk).foldl indexStep d := by
  intro walk
  induction walk with
  | nil => intro d; simp [walkPairs]
  | cons e rest ih =>
    intro d
    simp only [List.foldl_cons, walkPairs, List.flatMap_cons, List.foldl_append, ih,
      List.foldl_map]
    rfl

theorem dictGet_foldl_indexStep : ∀ (pairs : List (String × String)) (d : Index) (k : String),
    dictGet (pairs.foldl indexStep d) k =
      dictGet d k ++
        ((pairs.filter (fun rf => decide (indexKey rf.2 = some k))).map
          (fun rf => pathJoin rf.1 rf.2)) := by
  intro pairs
  induction pairs with
  | nil => intro d k; simp
  | cons rf rest ih =>
    intro d k
    simp only [List.foldl_cons, List.filter_cons]
    rw [show indexStep d rf = _ from indexFile_eq_key d rf.1 rf.2]
    cases hkey : indexKey rf.2 with
    | none => simp [hkey, ih]
    | some id =>
      by_cases hk : id = k
      · subst hk
        simp [hkey, ih, dictGet_dictAppend]
      · have hne : ¬ k = id := fun h => hk h.symm
        simp [hkey, hk, ih, dictGet_dictAppend, hne]

theorem dictContains_foldl_indexStep :
    ∀ (pairs : List (String × String)) (d : Index) (k : String),
    dictContains (pairs.foldl indexStep d) k =
      (dictContains d k || pairs.any (fun rf => decide (indexKey rf.2 = some k))) := by
  intro pairs
  induction pairs with
  | nil => intro d k; simp
  | cons rf rest ih =>
    intro d k
    simp only [List.foldl_cons, List.any_cons]
    rw [show indexStep d rf = _ from indexFile_eq_key d rf.1 rf.2]
    cases hkey : indexKey rf.2 with
    | none => simp [hkey, ih]
    | some id =>
      by_cases hk : id = k
      · subst hk
        simp only [hkey, ih, dictContains_dictAppend]
        cases hc : dictContains d id <;> simp [hkey]
      · have hne : ¬ k = id := fun h => hk h.symm
        simp [hkey, hk, ih, dictContains_dictAppend, hne]

theorem dictGet_buildIndex (w : Walk) (k : String) :
    dictGet (buildIndex w) k = matchesOf w k := by
  rw [buildIndex, buildIndex_eq_foldl, dictGet_foldl_indexStep]
  simp [matchesOf, dictGet]

theorem dictContains_buildIndex (w : Walk) (k : String) :
    dictContains (buildIndex w) k =
      (walkPairs w).any (fun rf => decide (indexKey rf.2 = some k)) := by
  rw [buildIndex, buildIndex_eq_foldl, dictContains_foldl_indexStep]
  simp [dictContains]

theorem dictContains_buildIndex_iff (w : Walk) (k : String) :
    dictContains (buildIndex w) k = true ↔ matchesOf w k ≠ [] := by
  rw [dictContains_buildIndex, List.any_eq_true]
  constructor
  · rintro ⟨rf, hrf, hdec⟩
    intro hnil
    have : rf ∈ (walkPairs w).filter (fun rf => decide (indexKey rf.2 = some k)) :=
      List.mem_filter.mpr ⟨hrf, hdec⟩
    rw [show ((walkPairs w).filter (fun rf => decide (indexKey rf.2 = some k))) = [] by
          simpa [matchesOf] using hnil] at this
    simp at this
  · intro hne
    rcases List.exists_mem_of_ne_nil _ hne with ⟨p, hp⟩
    simp only [matchesOf, List.mem_map] at hp
    rcases hp with ⟨rf, hrf, rfl⟩
    exact ⟨rf, (List.mem_filter.mp hrf).1, (List.mem_filter.mp hrf).2⟩


/-! ### Identifier extraction -/

theorem extract_identifier_eq_some {f : String} {full_id : List Char}
    (hg : regexGroup f = some full_id) :
    extract_identifier f =
      if 5 < full_id.length then some (String.mk (full_id.take (full_id.length - 5)))
      else some (String.mk full_id) := by
  rw [extract_identifier, hg]

theorem extract_identifier_eq_none {f : String} (hg : regexGroup f = none) :
    extract_identifier f = none := by
  rw [extract_identifier, hg]

theorem data_reverse_append_jpg (D : String) :
    ((D ++ ".jpg").data).reverse = 'g' :: 'p' :: 'j' :: '.' :: D.data.reverse := by
  rw [String.data_append, List.reverse_append,
    show ((".jpg".data : List Char)).reverse = ['g', 'p', 'j', '.'] from rfl]
  rfl

theorem stripNL_g (X : List Char) : stripNL ('g' :: X) = 'g' :: X := by
  rw [stripNL, if_neg]
  intro h
  rw [show ('g' :: X).take 1 = ['g'] from rfl] at h
  injection h with h1 _
  exact absurd h1 (by decide)

theorem regexGroup_append_jpg (D : String) (h1 : D.data ≠ [])
    (h2 : ∀ c ∈ D.data, c.isDigit = true) :
    regexGroup (D ++ ".jpg") = some D.data := by
  have hw : List.takeWhile Char.isDigit D.data.reverse = D.data.reverse :=
    takeWhile_of_all _ _ (fun c hc => h2 c (List.mem_reverse.mp hc))
  have hnil : ¬ (List.takeWhile Char.isDigit D.data.reverse = []) := by
    rw [hw]
    exact fun h => h1 (List.reverse_eq_nil_iff.mp h)
  rw [regexGroup, data_reverse_append_jpg, stripNL_g]
  rw [show revRunAfterJpg ('g' :: 'p' :: 'j' :: '.' :: D.data.reverse) =
        (if List.takeWhile Char.isDigit D.data.reverse = [] then none
         else some (List.takeWhile Char.isDigit D.data.reverse)) from rfl]
  rw [if_neg hnil, hw]
  simp

theorem extract_append_jpg (D : String) (h1 : D.data ≠ [])
    (h2 : ∀ c ∈ D.data, c.isDigit = true) :
    extract_identifier (D ++ ".jpg") =
      if 5 < D.data.length then some (String.mk (D.data.take (D.data.length - 5)))
      else some D := by
  rw [extract_identifier_eq_some (regexGroup_append_jpg D h1 h2)]

theorem revRunAfterJpg_eq (X : List Char) :
    revRunAfterJpg X =
      if X.take 4 = ['g', 'p', 'j', '.'] then
        (if (X.drop 4).takeWhile Char.isDigit = [] then none
         else some ((X.drop 4).takeWhile Char.isDigit))
      else none := rfl

theorem revRunAfterJpg_spec {X run : List Char} (h : revRunAfterJpg X = some run) :
    run ≠ [] ∧ ∀ c ∈ run, c.isDigit = true := by
  rw [revRunAfterJpg_eq] at h
  by_cases hp : X.take 4 = ['g', 'p', 'j', '.']
  · rw [if_pos hp] at h
    by_cases hr : (X.drop 4).takeWhile Char.isDigit = []
    · rw [if_pos hr] at h
      exact absurd h (by simp)
    · rw [if_neg hr] at h
      injection h with h
      subst h
      exact ⟨hr, fun c hc => (mem_of_mem_takeWhile hc).1⟩
  · rw [if_neg hp] at h
    exact absurd h (by simp)

theorem extract_some_spec {f s : String} (h : extract_identifier f = some s) :
    s ≠ "" ∧ s.data ≠ [] ∧ ∀ c ∈ s.data, c.isDigit = true := by
  have hdata : s.data ≠ [] ∧ ∀ c ∈ s.data, c.isDigit = true := by
    cases hg : regexGroup f with
    | none => rw [extract_identifier_eq_none hg] at h; exact absurd h (by simp)
    | some full_id =>
      rw [extract_identifier_eq_some hg] at h
      have hfull : full_id ≠ [] ∧ ∀ c ∈ full_id, c.isDigit = true := by
        rw [regexGroup] at hg
        cases hr : revRunAfterJpg (stripNL f.data.reverse) with
        | none => rw [hr] at hg; exact absurd hg (by simp)
        | some run =>
          rw [hr] at hg
          injection hg with hg
          subst hg
          obtain ⟨hne, hdig⟩ := revRunAfterJpg_spec hr
          refine ⟨by simpa using hne, ?_⟩
          intro c hc
          exact hdig c (List.mem_reverse.mp hc)
      by_cases h5 : 5 < full_id.length
      · rw [if_pos h5] at h
        injection h with h
        subst h
        constructor
        · intro hnil
          rw [show (String.mk (full_id.take (full_id.length - 5))).data =
            full_id.take (full_id.length - 5) from rfl] at hnil
          have := congrArg List.length hnil
          rw [List.length_take] at this
          simp at this
          omega
        · intro c hc
          exact hfull.2 c (List.take_subset _ _ hc)
      · rw [if_neg h5] at h
        injection h with h
        subst h
        exact hfull
  refine ⟨?_, hdata⟩
  intro hs
  subst hs
  exact hdata.1 rfl

/-- The reversed-list pattern behind the spec predicate: the first four
characters are `gpj.` and the fifth is a digit. -/
def revPat (X : List Char) : Prop :=
  X.take 4 = ['g', 'p', 'j', '.'] ∧ ∃ c, (X.drop 4).head? = some c ∧ c.isDigit = true

theorem revRunAfterJpg_none_iff (X : List Char) :
    revRunAfterJpg X = none ↔ ¬ revPat X := by
  rw [revRunAfterJpg_eq, revPat]
  by_cases hp : X.take 4 = ['g', 'p', 'j', '.']
  · rw [if_pos hp]
    by_cases hr : (X.drop 4).takeWhile Char.isDigit = []
    · rw [if_pos hr]
      have hno : ¬ ∃ c, (X.drop 4).head? = some c ∧ c.isDigit = true := fun hex =>
        (takeWhile_ne_nil_iff Char.isDigit (X.drop 4)).mpr hex hr
      constructor
      · intro _ hpat
        exact hno hpat.2
      · intro _
        rfl
    · rw [if_neg hr]
      have hex := (takeWhile_ne_nil_iff Char.isDigit (X.drop 4)).mp hr
      constructor
      · intro h
        exact absurd h (by simp)
      · intro hnot
        exact absurd ⟨hp, hex⟩ hnot
  · rw [if_neg hp]
    constructor
    · intro _ hpat
      exact hp hpat.1
    · intro _
      rfl

theorem endsInDigitsJpg_spec_false_iff (f : String) :
    endsInDigitsJpg_spec f = false ↔ ¬ revPat f.data.reverse := by
  rw [endsInDigitsJpg_spec, revPat]
  cases hh : (f.data.reverse.drop 4).head? with
  | none => simp [hh]
  | some c =>
    by_cases hc : c.isDigit = true
    · simp [hh, hc]
    · simp only [hh, Bool.and_eq_false_iff]
      constructor
      · rintro h ⟨h1, c', hc', hd⟩
        rcases h with h | h
        · exact absurd h1 (by simpa using h)
        · injection hc' with hc'
          subst hc'
          exact hc (by simpa using hd)
      · intro h
        right
        cases hcd : c.isDigit
        · rfl
        · exact absurd hcd hc

theorem extract_none_iff (f : String) :
    extract_identifier f = none ↔ endsInDigitsJpgOrNL_spec f = false := by
  have hext : extract_identifier f = none ↔
      revRunAfterJpg (stripNL f.data.reverse) = none := by
    cases hr : revRunAfterJpg (stripNL f.data.reverse) with
    | none =>
      rw [extract_identifier_eq_none (by rw [regexGroup, hr]; rfl)]
      simp [hr]
    | some run =>
      rw [@extract_identifier_eq_some f run.reverse (by rw [regexGroup, hr]; rfl)]
      constructor
      · intro hcontr
        split at hcontr <;> exact absurd hcontr (by simp)
      · intro hcontr
        exact absurd hcontr (by simp)
  rw [hext, endsInDigitsJpgOrNL_spec, stripNL]
  by_cases hnl : f.data.reverse.take 1 = ['\n']
  · rw [if_pos hnl, if_pos hnl]
    have hnotpat : ¬ revPat f.data.reverse := by
      rintro ⟨h1, _⟩
      have hg : List.take 1 (f.data.reverse) = ['g'] := by
        have h14 := congrArg (List.take 1) h1
        rw [List.take_take, show min 1 4 = 1 from rfl,
          show List.take 1 (['g', 'p', 'j', '.'] : List Char) = ['g'] from rfl] at h14
        exact h14
      have : (['g'] : List Char) = ['\n'] := hg.symm.trans hnl
      injection this with hgg _
      exact absurd hgg (by decide)
    have hspec : endsInDigitsJpg_spec f = false :=
      (endsInDigitsJpg_spec_false_iff f).mpr hnotpat
    rw [hspec, revRunAfterJpg_none_iff, Bool.false_or, endsInDigitsJpg_spec_false_iff,
      show (String.mk (f.data.reverse.drop 1).reverse).data.reverse =
        f.data.reverse.drop 1 by simp]
  · rw [if_neg hnl, if_neg hnl, revRunAfterJpg_none_iff, Bool.or_false,
      endsInDigitsJpg_spec_false_iff]

/-! ### The matching loop -/

theorem processFile_extract_none {sf : String} {d1 d2 : Index} {i : Nat} {f : String}
    (h : extract_identifier f = none) :
    processFile sf d1 d2 i f = .extractFailed f := by
  simp [processFile, h]

theorem processFile_extract_empty {sf : String} {d1 d2 : Index} {i : Nat} {f : String}
    (h : extract_identifier f = some "") :
    processFile sf d1 d2 i f = .extractFailed f := by
  simp [processFile, h]

theorem processFile_noMatch_eq {sf : String} {d1 d2 : Index} {i : Nat} {f id : String}
    (h : extract_identifier f = some id) (hne : ¬ id = "")
    (hc : (dictContains d1 id && dictContains d2 id) = false) :
    processFile sf d1 d2 i f = .noMatch id := by
  simp [processFile, h, hne, hc]

theorem processFile_match_eq {sf : String} {d1 d2 : Index} {i : Nat} {f id : String}
    (h : extract_identifier f = some id) (hne : ¬ id = "")
    (hc1 : dictContains d1 id = true) (hc2 : dictContains d2 id = true) :
    processFile sf d1 d2 i f =
      .matched id
        (decide (1 < (dictGet d1 id).length) || decide (1 < (dictGet d2 id).length))
        (pathJoin sf f) ((dictGet d1 id).headD "") ((dictGet d2 id).headD "")
        (fmt04d i ++ "_1_" ++ basename (normpath sf) ++ "_" ++ basename (pathJoin sf f))
        (fmt04d i ++ "_2_" ++ basename (normpath (dirname ((dictGet d1 id).headD ""))) ++ "_" ++
          basename ((dictGet d1 id).headD ""))
        (fmt04d i ++ "_3_" ++ basename (normpath (dirname ((dictGet d2 id).headD ""))) ++ "_" ++
          basename ((dictGet d2 id).headD "")) := by
  simp [processFile, h, hne, hc1, hc2]

theorem processFile_matched_inv {sf : String} {d1 d2 : Index} {i : Nat} {f : String}
    {id : String} {mult : Bool} {sp p1 p2 n1 n2 n3 : String}
    (h : processFile sf d1 d2 i f = .matched id mult sp p1 p2 n1 n2 n3) :
    extract_identifier f = some id ∧ ¬ id = "" ∧
    dictContains d1 id = true ∧ dictContains d2 id = true ∧
    sp = pathJoin sf f ∧
    p1 = (dictGet d1 id).headD "" ∧ p2 = (dictGet d2 id).headD "" ∧
    mult = (decide (1 < (dictGet d1 id).length) || decide (1 < (dictGet d2 id).length)) ∧
    n1 = fmt04d i ++ "_1_" ++ basename (normpath sf) ++ "_" ++ basename sp ∧
    n2 = fmt04d i ++ "_2_" ++ basename (normpath (dirname p1)) ++ "_" ++ basename p1 ∧
    n3 = fmt04d i ++ "_3_" ++ basename (normpath (dirname p2)) ++ "_" ++ basename p2 := by
  cases hx : extract_identifier f with
  | none =>
    rw [processFile_extract_none hx] at h
    exact absurd h (by simp)
  | some id' =>
    by_cases hne : id' = ""
    · subst hne
      rw [processFile_extract_empty hx] at h
      exact absurd h (by simp)
    · by_cases hc : (dictContains d1 id' && dictContains d2 id') = true
      · obtain ⟨hc1, hc2⟩ := Bool.and_eq_true_iff.mp hc
        rw [processFile_match_eq hx hne hc1 hc2] at h
        injection h with e1 e2 e3 e4 e5 e6 e7 e8
        subst e1
        subst e2
        subst e3
        subst e4
        subst e5
        subst e6
        subst e7
        subst e8
        exact ⟨rfl, hne, hc1, hc2, rfl, rfl, rfl, rfl, rfl, rfl, rfl⟩
      · have hc' : (dictContains d1 id' && dictContains d2 id') = false := by
          revert hc
          cases (dictContains d1 id' && dictContains d2 id') <;> simp
        rw [processFile_noMatch_eq hx hne hc'] at h
        exact absurd h (by simp)

theorem passState_eq (sf : String) (d1 d2 : Index) (pairs : List (Nat × String)) :
    passState sf d1 d2 pairs =
      (pairs.map (fun p => (p.1, processFile sf d1 d2 p.1 p.2)),
       (pairs.map (fun p => processFile sf d1 d2 p.1 p.2)).countP isMatched) := by
  have key : ∀ (ps : List (Nat × String)) (os : List (Nat × FileOutcome)) (c : Nat),
      ps.foldl (fun acc p =>
        let o := processFile sf d1 d2 p.1 p.2
        (acc.1 ++ [(p.1, o)], counterStep acc.2 o)) (os, c) =
      (os ++ ps.map (fun p => (p.1, processFile sf d1 d2 p.1 p.2)),
       c + (ps.map (fun p => processFile sf d1 d2 p.1 p.2)).countP isMatched) := by
    intro ps
    induction ps with
    | nil => intro os c; simp
    | cons p rest ih =>
      intro os c
      simp only [List.foldl_cons]
      rw [ih]
      cases hm : isMatched (processFile sf d1 d2 p.1 p.2) <;>
        simp [counterStep, hm, List.countP_cons] <;> omega
  rw [passState, key]
  simp

theorem find_matching_images_fst (sf : String) (listing : List String) (w1 w2 : Walk) :
    (find_matching_images sf listing w1 w2).1 =
      (sourceFiles listing).enum.map
        (fun p => (p.1, processFile sf (buildIndex w1) (buildIndex w2) p.1 p.2)) := by
  rw [find_matching_images, passState_eq]

theorem find_matching_images_snd (sf : String) (listing : List String) (w1 w2 : Walk) :
    (find_matching_images sf listing w1 w2).2 =
      (((find_matching_images sf listing w1 w2).1.map Prod.snd).countP isMatched) := by
  rw [find_matching_images, passState_eq]
  have hmm : ∀ l : List (Nat × String),
      ((l.map (fun p => (p.1, processFile sf (buildIndex w1) (buildIndex w2) p.1 p.2))).map
          Prod.snd).countP isMatched =
        (l.map (fun p =>
          processFile sf (buildIndex w1) (buildIndex w2) p.1 p.2)).countP isMatched := by
    intro l
    rw [List.map_map]
    exact rfl
  rw [hmm]

/-! ### Enumeration -/

theorem enumFrom_get {α : Type} (l : List α) : ∀ (n i : Nat),
    (List.enumFrom n l).get? i = (l.get? i).map (fun a => (n + i, a)) := by
  induction l with
  | nil => intro n i; simp
  | cons a t ih =>
    intro n i
    cases i with
    | zero => simp [List.enumFrom]
    | succ j =>
      have hfun : n + 1 + j = n + (j + 1) := by omega
      simp [List.enumFrom, ih (n + 1) j, hfun]

theorem enum_get {α : Type} (l : List α) (i : Nat) :
    l.enum.get? i = (l.get? i).map (fun a => (i, a)) := by
  have := enumFrom_get l 0 i
  simpa [List.enum] using this

theorem mem_enumFrom_fst {α : Type} : ∀ {n : Nat} {l : List α} {p : Nat × α},
    p ∈ List.enumFrom n l → n ≤ p.1 := by
  intro n l
  induction l generalizing n with
  | nil => intro p h; simp at h
  | cons a t ih =>
    intro p h
    rcases List.mem_cons.mp h with rfl | h
    · exact le_rfl
    · have := ih h
      omega

theorem enumFrom_pairwise {α : Type} : ∀ (n : Nat) (l : List α),
    List.Pairwise (fun p q : Nat × α => p.1 < q.1) (List.enumFrom n l) := by
  intro n l
  induction l generalizing n with
  | nil => simp
  | cons a t ih =>
    refine List.pairwise_cons.mpr ⟨?_, ih (n + 1)⟩
    intro q hq
    have := mem_enumFrom_fst hq
    simp only []
    omega

theorem enum_pairwise {α : Type} (l : List α) :
    List.Pairwise (fun p q : Nat × α => p.1 < q.1) l.enum :=
  enumFrom_pairwise 0 l

/-! ### Shape of the emitted destination names -/

theorem outcomeDestNames_processFile (sf : String) (d1 d2 : Index) (i : Nat) (f : String) :
    outcomeDestNames (processFile sf d1 d2 i f) = [] ∨
    ∃ r1 r2 r3 : List Char,
      outcomeDestNames (processFile sf d1 d2 i f) =
        [String.mk (mkName i '1' r1), String.mk (mkName i '2' r2),
         String.mk (mkName i '3' r3)] := by
  cases hx : extract_identifier f with
  | none =>
    left
    rw [processFile_extract_none hx]
    rfl
  | some id =>
    by_cases hne : id = ""
    · left
      subst hne
      rw [processFile_extract_empty hx]
      rfl
    · by_cases hc : (dictContains d1 id && dictContains d2 id) = true
      · right
        obtain ⟨hc1, hc2⟩ := Bool.and_eq_true_iff.mp hc
        rw [processFile_match_eq hx hne hc1 hc2]
        refine ⟨(basename (normpath sf)).data ++ '_' :: (basename (pathJoin sf f)).data,
          (basename (normpath (dirname ((dictGet d1 id).headD "")))).data ++
            '_' :: (basename ((dictGet d1 id).headD "")).data,
          (basename (normpath (dirname ((dictGet d2 id).headD "")))).data ++
            '_' :: (basename ((dictGet d2 id).headD "")).data, ?_⟩
        rw [outcomeDestNames,
          str_eq_of_data (name1_data i (basename (normpath sf))
            (basename (pathJoin sf f))),
          str_eq_of_data (name2_data i
            (basename (normpath (dirname ((dictGet d1 id).headD ""))))
            (basename ((dictGet d1 id).headD ""))),
          str_eq_of_data (name3_data i
            (basename (normpath (dirname ((dictGet d2 id).headD ""))))
            (basename ((dictGet d2 id).headD "")))]
        simp [mkName]
      · left
        have hc' : (dictContains d1 id && dictContains d2 id) = false := by
          revert hc
          cases (dictContains d1 id && dictContains d2 id) <;> simp
        rw [processFile_noMatch_eq hx hne hc']
        rfl

theorem outcome_triple_nodup (sf : String) (d1 d2 : Index) (i : Nat) (f : String) :
    (outcomeDestNames (processFile sf d1 d2 i f)).Nodup := by
  rcases outcomeDestNames_processFile sf d1 d2 i f with h | ⟨r1, r2, r3, h⟩
  · rw [h]
    exact List.nodup_nil
  · rw [h]
    have h12 : String.mk (mkName i '1' r1) ≠ String.mk (mkName i '2' r2) := by
      intro he
      exact absurd (mkName_inj (congrArg String.data he)).2 (by decide)
    have h13 : String.mk (mkName i '1' r1) ≠ String.mk (mkName i '3' r3) := by
      intro he
      exact absurd (mkName_inj (congrArg String.data he)).2 (by decide)
    have h23 : String.mk (mkName i '2' r2) ≠ String.mk (mkName i '3' r3) := by
      intro he
      exact absurd (mkName_inj (congrArg String.data he)).2 (by decide)
    simp [h12, h13, h23]

theorem names_disjoint {i j : Nat} (hij : i ≠ j) (sf : String) (d1 d2 : Index)
    (f g : String) :
    List.Disjoint (outcomeDestNames (processFile sf d1 d2 i f))
      (outcomeDestNames (processFile sf d1 d2 j g)) := by
  intro x hx hx'
  rcases outcomeDestNames_processFile sf d1 d2 i f with h | ⟨r1, r2, r3, h⟩
  · rw [h] at hx
    simp at hx
  · rcases outcomeDestNames_processFile sf d1 d2 j g with h' | ⟨s1, s2, s3, h'⟩
    · rw [h'] at hx'
      simp at hx'
    · rw [h] at hx
      rw [h'] at hx'
      have hxi : ∃ c r, x = String.mk (mkName i c r) := by
        simp only [List.mem_cons, List.not_mem_nil, or_false] at hx
        rcases hx with rfl | rfl | rfl
        · exact ⟨'1', r1, rfl⟩
        · exact ⟨'2', r2, rfl⟩
        · exact ⟨'3', r3, rfl⟩
      have hxj : ∃ c r, x = String.mk (mkName j c r) := by
        simp only [List.mem_cons, List.not_mem_nil, or_false] at hx'
        rcases hx' with rfl | rfl | rfl
        · exact ⟨'1', s1, rfl⟩
        · exact ⟨'2', s2, rfl⟩
        · exact ⟨'3', s3, rfl⟩
      obtain ⟨c, r, rfl⟩ := hxi
      obtain ⟨c', r', he⟩ := hxj
      exact hij (mkName_inj (congrArg String.data he)).1

theorem allDestNames_nodup_general (sf : String) (listing : List String) (w1 w2 : Walk) :
    (allDestNames sf listing w1 w2).Nodup := by
  rw [allDestNames, find_matching_images_fst, List.nodup_flatMap]
  constructor
  · intro p hp
    rcases List.mem_map.mp hp with ⟨q, hq, rfl⟩
    exact outcome_triple_nodup sf (buildIndex w1) (buildIndex w2) q.1 q.2
  · rw [List.pairwise_map]
    refine (enum_pairwise (sourceFiles listing)).imp ?_
    intro a b hab
    exact names_disjoint (Nat.ne_of_lt hab) sf (buildIndex w1) (buildIndex w2) a.2 b.2

/-! ### Destination paths -/

theorem mem_allDestNames_shape {sf : String} {listing : List String} {w1 w2 : Walk}
    {x : String} (hx : x ∈ allDestNames sf listing w1 w2) :
    ∃ i c r, x = String.mk (mkName i c r) := by
  rw [allDestNames, find_matching_images_fst] at hx
  rcases List.mem_flatMap.mp hx with ⟨p, hp, hxp⟩
  rcases List.mem_map.mp hp with ⟨q, hq, rfl⟩
  rcases outcomeDestNames_processFile sf (buildIndex w1) (buildIndex w2) q.1 q.2 with
    h | ⟨r1, r2, r3, h⟩
  · rw [h] at hxp
    simp at hxp
  · rw [h] at hxp
    simp only [List.mem_cons, List.not_mem_nil, or_false] at hxp
    rcases hxp with rfl | rfl | rfl
    · exact ⟨q.1, '1', r1, rfl⟩
    · exact ⟨q.1, '2', r2, rfl⟩
    · exact ⟨q.1, '3', r3, rfl⟩

theorem mkName_take_one (i : Nat) (c : Char) (r : List Char) :
    (String.mk (mkName i c r)).data.take 1 ≠ ['/'] := by
  have hlen : pad4 i ≠ [] := by
    intro h
    have := pad4_length i
    rw [h] at this
    simp at this
    omega
  cases hp : pad4 i with
  | nil => exact absurd hp hlen
  | cons a t =>
    have ha : a.isDigit = true := pad4_isDigit i a (by rw [hp]; simp)
    rw [show (String.mk (mkName i c r)).data = mkName i c r from rfl, mkName, hp]
    rw [show ((a :: t) ++ '_' :: c :: '_' :: r).take 1 = [a] from rfl]
    intro h
    injection h with h1 _
    exact isDigit_ne_slash ha h1

theorem pathJoin_inj_of_head {dest x y : String}
    (hx : x.data.take 1 ≠ ['/']) (hy : y.data.take 1 ≠ ['/'])
    (h : pathJoin dest x = pathJoin dest y) : x = y := by
  rw [pathJoin, pathJoin, if_neg hx, if_neg hy] at h
  by_cases hd : dest = "" ∨ dest.data.getLast? = some '/'
  · rw [if_pos hd, if_pos hd] at h
    have := congrArg String.data h
    rw [String.data_append, String.data_append] at this
    exact str_eq_of_data (List.append_cancel_left this)
  · rw [if_neg hd, if_neg hd] at h
    have := congrArg String.data h
    rw [String.data_append, String.data_append, String.data_append,
      String.data_append] at this
    simp only [List.append_assoc] at this
    exact str_eq_of_data (List.append_cancel_left (List.append_cancel_left this))

/-! ## The claims -/

/-- C1.  For every filename consisting of a digit run `D` immediately followed
by `.jpg`, `extract_identifier` returns `D` with its last five characters
removed when `length D > 5`, and `D` unchanged when `length D ≤ 5`; in
particular `extract_identifier "img00012345.jpg" = some "000"` (the digit run
`00012345` has length 8). -/
theorem claim_extract_truncation_law :
    (∀ D : String, D.data ≠ [] → (∀ c ∈ D.data, c.isDigit = true) →
      extract_identifier (D ++ ".jpg") =
        if 5 < D.data.length then some (String.mk (D.data.take (D.data.length - 5)))
        else some D) ∧
    extract_identifier "img00012345.jpg" = some "000" := by
  constructor
  · intro D h1 h2
    exact extract_append_jpg D h1 h2
  · decide

/-- C1 witness: the truncation law evaluated at the digit runs `00012345`
(length 8, truncated to `000`) and `123` (length 3, unchanged). -/
theorem claim_extract_truncation_law_witness :
    extract_identifier ("00012345" ++ ".jpg") = some "000" ∧
    extract_identifier ("123" ++ ".jpg") = some "123" := by
  constructor
  · exact (claim_extract_truncation_law.1 "00012345" (by decide) (by decide)).trans
      (by decide)
  · exact (claim_extract_truncation_law.1 "123" (by decide) (by decide)).trans (by decide)

/-- C2.  Every emitted match group at source position `i` copies to exactly
the three names `{i:04d}_1_{lastseg sf}_{basename src}`,
`{i:04d}_2_{lastseg (dirname match1)}_{basename match1}` and
`{i:04d}_3_{lastseg (dirname match2)}_{basename match2}`, where the group
name of slots 2 and 3 comes from the parent directory of the matched file
(its `dirname`), not the scan root, and the last path segment of a directory
is `basename ∘ normpath`.  The index is zero-padded to width 4 and larger
indices are rendered wider with their full decimal value preserved. -/
theorem claim_dest_name_pattern (sf : String) (listing : List String) (w1 w2 : Walk)
    (i : Nat) (id : String) (mult : Bool) (sp p1 p2 n1 n2 n3 : String)
    (h : (i, FileOutcome.matched id mult sp p1 p2 n1 n2 n3) ∈
      (find_matching_images sf listing w1 w2).1) :
    n1 = specName i 1 (basename (normpath sf)) (basename sp) ∧
    n2 = specName i 2 (basename (normpath (dirname p1))) (basename p1) ∧
    n3 = specName i 3 (basename (normpath (dirname p2))) (basename p2) ∧
    (pad4 i).length = max 4 (decChars i).length ∧
    charsVal (pad4 i) = i ∧
    (10000 ≤ i → fmt04d i = String.mk (decChars i)) := by
  rw [find_matching_images_fst] at h
  rcases List.mem_map.mp h with ⟨q, hq, he⟩
  injection he with hfst hsnd
  subst hfst
  obtain ⟨hx, hne, hc1, hc2, hsp, hp1, hp2, hmult, hn1, hn2, hn3⟩ :=
    processFile_matched_inv hsnd
  refine ⟨?_, ?_, ?_, pad4_length _, charsVal_pad4 _, fun h10 => fmt04d_wide h10⟩
  · rw [specName_one]
    exact hn1
  · rw [specName_two]
    exact hn2
  · rw [specName_three]
    exact hn3

/-- C2 witness: a concrete full-match run; the three destination names follow
the spec pattern. -/
theorem claim_dest_name_pattern_witness :
    "0000_1_src_00010001.jpg" =
      specName 0 1 (basename (normpath "src")) (basename "src/00010001.jpg") ∧
    "0000_2_f1_00012345.jpg" =
      specName 0 2 (basename (normpath (dirname "f1/00012345.jpg")))
        (basename "f1/00012345.jpg") ∧
    "0000_3_f2_00054321.jpg" =
      specName 0 3 (basename (normpath (dirname "f2/00054321.jpg")))
        (basename "f2/00054321.jpg") := by
  have h := claim_dest_name_pattern "src" ["00010001.jpg"] [("f1", ["00012345.jpg"])]
    [("f2", ["00054321.jpg"])] 0 "000" false "src/00010001.jpg" "f1/00012345.jpg"
    "f2/00054321.jpg" "0000_1_src_00010001.jpg" "0000_2_f1_00012345.jpg"
    "0000_3_f2_00054321.jpg" (by decide)
  exact ⟨h.1, h.2.1, h.2.2.1⟩

/-- C3.  With both candidate indices built from their walks, a source file
whose identifier extraction succeeds is emitted as a match group iff its
identifier is a key of both indices; when it is missing from either index the
outcome is the reported no-match line, no destination names are produced and
the counter step leaves the running count unchanged; when it is present in
both, the outcome copies three files (the source path plus one path from each
index) and the counter step increments the count by one; and the pass always
processes every file of the source list. -/
theorem claim_match_iff_in_both_indices (sf : String) (w1 w2 : Walk) (i : Nat)
    (f id : String) (hx : extract_identifier f = some id) :
    (isMatched (processFile sf (buildIndex w1) (buildIndex w2) i f) = true ↔
      (dictContains (buildIndex w1) id = true ∧ dictContains (buildIndex w2) id = true)) ∧
    (¬ (dictContains (buildIndex w1) id = true ∧ dictContains (buildIndex w2) id = true) →
      processFile sf (buildIndex w1) (buildIndex w2) i f = .noMatch id ∧
      outcomeDestNames (processFile sf (buildIndex w1) (buildIndex w2) i f) = [] ∧
      ∀ c, counterStep c (processFile sf (buildIndex w1) (buildIndex w2) i f) = c) ∧
    ((dictContains (buildIndex w1) id = true ∧ dictContains (buildIndex w2) id = true) →
      ∃ mult p1 p2 n1 n2 n3,
        processFile sf (buildIndex w1) (buildIndex w2) i f =
          .matched id mult (pathJoin sf f) p1 p2 n1 n2 n3 ∧
        p1 ∈ dictGet (buildIndex w1) id ∧ p2 ∈ dictGet (buildIndex w2) id ∧
        outcomeDestNames (processFile sf (buildIndex w1) (buildIndex w2) i f) =
          [n1, n2, n3] ∧
        ∀ c, counterStep c (processFile sf (buildIndex w1) (buildIndex w2) i f) = c + 1) ∧
    (∀ listing, (find_matching_images sf listing w1 w2).1.length =
      (sourceFiles listing).length) := by
  have hne : ¬ id = "" := (extract_some_spec hx).1
  refine ⟨?_, ?_, ?_, ?_⟩
  · constructor
    · intro hm
      by_cases hc : (dictContains (buildIndex w1) id && dictContains (buildIndex w2) id)
          = true
      · exact Bool.and_eq_true_iff.mp hc
      · have hc' : (dictContains (buildIndex w1) id &&
            dictContains (buildIndex w2) id) = false := by
          revert hc
          cases (dictContains (buildIndex w1) id && dictContains (buildIndex w2) id) <;>
            simp
        rw [processFile_noMatch_eq hx hne hc'] at hm
        exact absurd hm (by simp [isMatched])
    · rintro ⟨hc1, hc2⟩
      rw [processFile_match_eq hx hne hc1 hc2]
      rfl
  · intro hnot
    have hc' : (dictContains (buildIndex w1) id && dictContains (buildIndex w2) id)
        = false := by
      cases ha : dictContains (buildIndex w1) id <;>
        cases hb : dictContains (buildIndex w2) id <;> simp_all
    rw [processFile_noMatch_eq hx hne hc']
    exact ⟨rfl, rfl, fun c => rfl⟩
  · rintro ⟨hc1, hc2⟩
    have hne1 : dictGet (buildIndex w1) id ≠ [] := by
      rw [dictGet_buildIndex]
      exact (dictContains_buildIndex_iff w1 id).mp hc1
    have hne2 : dictGet (buildIndex w2) id ≠ [] := by
      rw [dictGet_buildIndex]
      exact (dictContains_buildIndex_iff w2 id).mp hc2
    refine ⟨_, _, _, _, _, _, processFile_match_eq hx hne hc1 hc2,
      headD_mem hne1 "", headD_mem hne2 "", ?_, ?_⟩
    · rw [processFile_match_eq hx hne hc1 hc2]
      rfl
    · intro c
      rw [processFile_match_eq hx hne hc1 hc2]
      rfl
  · intro listing
    rw [find_matching_images_fst]
    simp [List.enum_length]

/-- C3 witness: the identifier `000` is present in folder1's index but absent
from folder2's (empty walk), so the file is reported as a no-match, copies
nothing and leaves the counter unchanged. -/
theorem claim_match_iff_in_both_indices_witness :
    processFile "src" (buildIndex [("f1", ["00012345.jpg"])]) (buildIndex ([] : Walk)) 0
        "00010001.jpg" = .noMatch "000" ∧
    outcomeDestNames (processFile "src" (buildIndex [("f1", ["00012345.jpg"])])
        (buildIndex ([] : Walk)) 0 "00010001.jpg") = [] ∧
    counterStep 7 (processFile "src" (buildIndex [("f1", ["00012345.jpg"])])
        (buildIndex ([] : Walk)) 0 "00010001.jpg") = 7 := by
  have h := (claim_match_iff_in_both_indices "src" [("f1", ["00012345.jpg"])] []
    0 "00010001.jpg" "000" (by decide)).2.1 (by decide)
  exact ⟨h.1, h.2.1, h.2.2 7⟩

/-- C4.  The source list is the case-insensitively `.jpg`-filtered,
lexicographically sorted non-recursive listing (sorted with respect to the
standard string order), it is a permutation of the filtered listing, every
outcome of the pass at position `i` is the processing of the `i`-th sorted
source file under group index `i`, and the spec's example listing sorts as
stated. -/
theorem claim_source_list_order (listing : List String) :
    List.Sorted (· ≤ ·) (sourceFiles listing) ∧
    (sourceFiles listing).Perm (listing.filter isJpgCI) ∧
    (∀ sf w1 w2 i f, (sourceFiles listing).get? i = some f →
      (find_matching_images sf listing w1 w2).1.get? i =
        some (i, processFile sf (buildIndex w1) (buildIndex w2) i f)) ∧
    sourceFiles ["b_00010001.jpg", "a_00020002.jpg"] =
      ["a_00020002.jpg", "b_00010001.jpg"] := by
  refine ⟨?_, ?_, ?_, by decide⟩
  · exact List.Pairwise.sublist (List.filter_sublist _) (sortStrings_sorted listing)
  · exact List.Perm.filter isJpgCI (sortStrings_perm listing)
  · intro sf w1 w2 i f hf
    rw [find_matching_images_fst, List.get?_map, enum_get, hf]
    rfl

/-- C4 witness: on the spec's example listing the pass processes
`a_00020002.jpg` with group index 0 and `b_00010001.jpg` with group index 1. -/
theorem claim_source_list_order_witness :
    (find_matching_images "src" ["b_00010001.jpg", "a_00020002.jpg"]
        [("f1", ["00012345.jpg"])] [("f2", ["00054321.jpg"])]).1.get? 0 =
      some (0, processFile "src" (buildIndex [("f1", ["00012345.jpg"])])
        (buildIndex [("f2", ["00054321.jpg"])]) 0 "a_00020002.jpg") ∧
    (find_matching_images "src" ["b_00010001.jpg", "a_00020002.jpg"]
        [("f1", ["00012345.jpg"])] [("f2", ["00054321.jpg"])]).1.get? 1 =
      some (1, processFile "src" (buildIndex [("f1", ["00012345.jpg"])])
        (buildIndex [("f2", ["00054321.jpg"])]) 1 "b_00010001.jpg") := by
  have h := claim_source_list_order ["b_00010001.jpg", "a_00020002.jpg"]
  exact ⟨h.2.2.1 "src" [("f1", ["00012345.jpg"])] [("f2", ["00054321.jpg"])] 0
      "a_00020002.jpg" (by decide),
    h.2.2.1 "src" [("f1", ["00012345.jpg"])] [("f2", ["00054321.jpg"])] 1
      "b_00010001.jpg" (by decide)⟩

/-- C5.  A matched source file uses exactly the first path, in traversal
order, of each index's sequence for its identifier, and the multiple-matches
notice is reported exactly when at least one of the two sequences has more
than one entry. -/
theorem claim_first_match_used (sf : String) (w1 w2 : Walk) (i : Nat) (f : String)
    (id : String) (mult : Bool) (sp p1 p2 n1 n2 n3 : String)
    (h : processFile sf (buildIndex w1) (buildIndex w2) i f =
      .matched id mult sp p1 p2 n1 n2 n3) :
    (matchesOf w1 id).head? = some p1 ∧
    (matchesOf w2 id).head? = some p2 ∧
    (mult = true ↔ 1 < (matchesOf w1 id).length ∨ 1 < (matchesOf w2 id).length) := by
  obtain ⟨hx, hne, hc1, hc2, hsp, hp1, hp2, hmult, hn1, hn2, hn3⟩ :=
    processFile_matched_inv h
  have hg1 : dictGet (buildIndex w1) id = matchesOf w1 id := dictGet_buildIndex w1 id
  have hg2 : dictGet (buildIndex w2) id = matchesOf w2 id := dictGet_buildIndex w2 id
  have hnil1 : matchesOf w1 id ≠ [] := (dictContains_buildIndex_iff w1 id).mp hc1
  have hnil2 : matchesOf w2 id ≠ [] := (dictContains_buildIndex_iff w2 id).mp hc2
  refine ⟨?_, ?_, ?_⟩
  · rw [hp1, hg1]
    cases hml : matchesOf w1 id with
    | nil => exact absurd hml hnil1
    | cons a t => rfl
  · rw [hp2, hg2]
    cases hml : matchesOf w2 id with
    | nil => exact absurd hml hnil2
    | cons a t => rfl
  · rw [hmult, hg1, hg2]
    simp

/-- C5 witness: folder1 holds two files with identifier `000`; the first by
traversal order is used and the multiple-matches notice fires. -/
theorem claim_first_match_used_witness :
    (matchesOf [("f1", ["00012345.jpg", "00054321.jpg"])] "000").head? =
      some "f1/00012345.jpg" ∧
    (matchesOf [("f2", ["00099999.jpg"])] "000").head? = some "f2/00099999.jpg" ∧
    (true = true ↔
      1 < (matchesOf [("f1", ["00012345.jpg", "00054321.jpg"])] "000").length ∨
      1 < (matchesOf [("f2", ["00099999.jpg"])] "000").length) :=
  claim_first_match_used "src" [("f1", ["00012345.jpg", "00054321.jpg"])]
    [("f2", ["00099999.jpg"])] 0 "00010001.jpg" "000" true "src/00010001.jpg"
    "f1/00012345.jpg" "f2/00099999.jpg" "0000_1_src_00010001.jpg"
    "0000_2_f1_00012345.jpg" "0000_3_f2_00099999.jpg" (by decide)

/-- C6 counterexample: Python's `$` anchor also matches just before a single
trailing newline, so `extract_identifier "1.jpg\n"` succeeds although the
filename does not end in the literal `.jpg`; the claim's "exactly" is
therefore false as stated. -/
theorem claim_extract_suffix_counterexample :
    extract_identifier "1.jpg\n" = some "1" ∧
    endsInDigitsJpg_spec "1.jpg\n" = false := by
  decide

/-- C6 (amended).  `extract_identifier` returns `none` exactly for filenames
such that neither the name itself nor the name with one final newline removed
ends in one or more digits immediately followed by the case-sensitive literal
`.jpg`; in particular `photo_final.jpg` and a name in upper-case `.JPG` yield
`none`, the latter although it passes the caller's case-insensitive filter. -/
theorem claim_extract_none_characterization (f : String) :
    (extract_identifier f = none ↔ endsInDigitsJpgOrNL_spec f = false) ∧
    extract_identifier "photo_final.jpg" = none ∧
    extract_identifier "123.JPG" = none ∧
    isJpgCI "123.JPG" = true := by
  exact ⟨extract_none_iff f, by decide, by decide, by decide⟩

/-- C7.  Each candidate index is exactly characterized by its walk: the
sequence stored under a key is the traversal-ordered list of joined paths of
the `.jpg`-suffixed (case-insensitively) files whose extracted identifier is
that key — files yielding no identifier contribute to no key — and a key is
present in the index iff that list is nonempty. -/
theorem claim_index_traversal_characterization (w : Walk) (k : String) :
    dictGet (buildIndex w) k =
      ((walkPairs w).filter (fun rf => decide (indexKey rf.2 = some k))).map
        (fun rf => pathJoin rf.1 rf.2) ∧
    (dictContains (buildIndex w) k = true ↔ matchesOf w k ≠ []) :=
  ⟨dictGet_buildIndex w k, dictContains_buildIndex_iff w k⟩

/-- C8.  The pass never aborts (it yields one outcome per source-list entry),
after any number of processed files the running counter equals the number of
match groups emitted so far, and the reported total is the count of emitted
match groups of the whole run. -/
theorem claim_counter_invariant (sf : String) (listing : List String) (w1 w2 : Walk) :
    (find_matching_images sf listing w1 w2).1.length = (sourceFiles listing).length ∧
    (∀ k, (passState sf (buildIndex w1) (buildIndex w2)
        ((sourceFiles listing).enum.take k)).2 =
      ((passState sf (buildIndex w1) (buildIndex w2)
        ((sourceFiles listing).enum.take k)).1.map Prod.snd).countP isMatched) ∧
    (find_matching_images sf listing w1 w2).2 =
      (((find_matching_images sf listing w1 w2).1.map Prod.snd).countP isMatched) := by
  refine ⟨?_, ?_, find_matching_images_snd sf listing w1 w2⟩
  · rw [find_matching_images_fst]
    simp [List.enum_length]
  · intro k
    rw [passState_eq, List.map_map]
    exact rfl

/-- C9.  `extract_identifier` never returns the empty string: every successful
extraction is a nonempty all-digit string, so the Python truthiness guards on
the result coincide with a `None` test. -/
theorem claim_extract_nonempty (f : String) :
    (∀ s, extract_identifier f = some s →
      s ≠ "" ∧ s.data ≠ [] ∧ ∀ c ∈ s.data, c.isDigit = true) ∧
    strTruthy (extract_identifier f) = (extract_identifier f).isSome := by
  constructor
  · intro s hs
    exact extract_some_spec hs
  · cases hxx : extract_identifier f with
    | none => rfl
    | some s =>
      have hs := (extract_some_spec hxx).1
      simp [strTruthy, hs]

/-- C9 witness: the extraction result for `img00012345.jpg` is the nonempty
digit string `000`, and on that input the truthiness guard equals the
`isSome` test. -/
theorem claim_extract_nonempty_witness :
    ("000" ≠ "" ∧ "000".data ≠ [] ∧ ∀ c ∈ "000".data, c.isDigit = true) ∧
    strTruthy (extract_identifier "img00012345.jpg") =
      (extract_identifier "img00012345.jpg").isSome :=
  ⟨(claim_extract_nonempty "img00012345.jpg").1 "000" (by decide),
    (claim_extract_nonempty "img00012345.jpg").2⟩

/-- C10.  Within a single run all destination file names are pairwise
distinct — the three names of one group differ in their slot digit and names
of different groups differ in their decimal index — and hence, for any
destination folder, the copy-target paths are pairwise distinct as well: no
copy of the run overwrites a file copied earlier in the same run. -/
theorem claim_dest_names_distinct (sf : String) (listing : List String) (w1 w2 : Walk)
    (dest : String) :
    (allDestNames sf listing w1 w2).Nodup ∧
    ((allDestNames sf listing w1 w2).map (pathJoin dest)).Nodup := by
  refine ⟨allDestNames_nodup_general sf listing w1 w2, ?_⟩
  refine List.Nodup.map_on ?_ (allDestNames_nodup_general sf listing w1 w2)
  intro x hx y hy hxy
  obtain ⟨i, c, r, rfl⟩ := mem_allDestNames_shape hx
  obtain ⟨j, c2, r2, rfl⟩ := mem_allDestNames_shape hy
  exact pathJoin_inj_of_head (mkName_take_one i c r) (mkName_take_one j c2 r2) hxy

end MatchImages
